import Mathlib

/-!
Verification development for the `term` repository (`prompt` and `ansi` packages)

A shallow embedding of `prompt/prompt.go` and of the SGR formatter exercised by
`ansi/sgr_test.go`.

Conventions of the embedding

* A Go `string` is its sequence of bytes (`Bytes`); a byte is a natural number.
* A Go `error` value is `Option GoError`, `none` being `nil`.
* A Go slice is a `List`; the `nil` slice is `[]`.
* Go `int` is the 64-bit signed integer, carried by `Int`.
* Mutable objects (`*w`, the `bufio.Reader` and the `io.Writer` inside `*Prompt`) are
  threaded explicitly: every operation returns the updated objects.
* A Go run-time panic is the `error` side of `Except Panic`.
-/

namespace Term

/-! ## Basic data -/

/-- One byte of a Go string. -/
abbrev Byte := Nat

/-- A Go string: a sequence of bytes. -/
abbrev Bytes := List Byte

/-- Which failure a `*strconv.NumError` reports. -/
inductive NumErrKind
  | invalid
  | range
deriving DecidableEq, Repr

/-- Non-nil Go `error` values that occur in the package. -/
inductive GoError
  | EOF
  | io (code : Nat)
  | numError (num : Bytes) (kind : NumErrKind)
deriving DecidableEq, Repr

/-- Values carried by a Go run-time panic. -/
inductive Panic
  | invalidColor
  | sliceBounds
deriving DecidableEq, Repr

/-- The type `colors.Color`; its declaration lives in the `colors` package. -/
abbrev Color := Int

/-- The parts of the `colors` package that `prompt.go` refers to by name:
the constant `colors.Default` and the method `Color.IsValid`. -/
structure Colors where
  Default : Color
  IsValid : Color → Bool

/-! ## The output side: `io.Writer` behind `colors.Fprint*` -/

/-- An argument of a variadic print call (`interface{}` holding a string or an int). -/
inductive Arg
  | str (s : Bytes)
  | int (n : Int)
deriving DecidableEq, Repr

/-- Which of the three `colors` print functions is called. -/
inductive PrintFn
  | Fprint
  | Fprintln
  | Fprintf (format : Bytes)
deriving DecidableEq, Repr

/-- One call `colors.Fprint*(output, foreground, background, args...)`. -/
structure PrintCall where
  fn : PrintFn
  foreground : Color
  background : Color
  args : List Arg
deriving DecidableEq, Repr

/-- The state of the output sink: the print calls it has received so far, in order, and
the results the sink will give to the coming calls (`none` is success; once the list is
used up every call succeeds). -/
structure Writer where
  calls : List PrintCall
  outcomes : List (Option GoError)
deriving DecidableEq, Repr

/-- Every coming write on the sink succeeds. -/
def Writer.succeeds (o : Writer) : Prop := ∀ r ∈ o.outcomes, r = none

instance (o : Writer) : Decidable o.succeeds := by
  unfold Writer.succeeds; infer_instance

/-- One call of a `colors.Fprint*` function on the sink: the call reaches the sink and
its error result is the sink's next outcome. -/
def colorsCall (o : Writer) (c : PrintCall) : Writer × Option GoError :=
  match o.outcomes with
  | [] => (⟨o.calls ++ [c], []⟩, none)
  | r :: rs => (⟨o.calls ++ [c], rs⟩, r)

/-! ## The input side: `bufio.Reader` -/

/-- What the underlying `io.Reader` delivers next: a byte, or a failed read. -/
inductive ReadEvent
  | data (b : Byte)
  | fail (e : GoError)
deriving DecidableEq, Repr

/-- The remaining input of a `bufio.Reader`; when the list is used up every read
reports `io.EOF`. -/
abbrev Reader := List ReadEvent

/-- The input that consists of the given bytes followed by end of stream. -/
def Reader.ofBytes (s : Bytes) : Reader := s.map ReadEvent.data

/-- Result of `bufio.Reader.ReadString`. -/
structure ReadResult where
  line : Bytes
  err : Option GoError
  rest : Reader
deriving DecidableEq, Repr

/-- The method `(*bufio.Reader).ReadString(delim)`: reads until the first occurrence of
`delim`, returning the bytes read up to and including the delimiter; if a read fails
before the delimiter is found it returns the bytes read so far and the failure. -/
def ReadString : Reader → Byte → ReadResult
  | [], _ => ⟨[], some GoError.EOF, []⟩
  | ReadEvent.fail e :: rest, _ => ⟨[], some e, rest⟩
  | ReadEvent.data b :: rest, delim =>
    if b = delim then ⟨[b], none, rest⟩
    else
      let r := ReadString rest delim
      ⟨b :: r.line, r.err, r.rest⟩

/-- The slice expression `v[:hi]` on a string, which panics when `hi` is out of range. -/
def sliceTo (v : Bytes) (hi : Int) : Except Panic Bytes :=
  if 0 ≤ hi ∧ hi ≤ v.length then Except.ok (v.take hi.toNat) else Except.error Panic.sliceBounds

/-! ## `prompt.go` -/

/-- The struct `w`: the first error met so far. -/
structure W where
  err : Option GoError
deriving DecidableEq, Repr

/-- The struct `Prompt`. -/
structure Prompt where
  reader : Reader
  output : Writer
  delim : Byte
  defaultColor : Color
deriving DecidableEq, Repr

/-- The constructor `New`. -/
def New (C : Colors) (delim : Byte) (input : Reader) (output : Writer)
    (defaultColor : Color) : Except Panic Prompt :=
  let delim := if delim = 0 then 10 else delim
  if !C.IsValid defaultColor then Except.error Panic.invalidColor
  else Except.ok ⟨input, output, delim, defaultColor⟩

/-- The method `w.println`. -/
def W.println (w : W) (C : Colors) (output : Writer) (c : Color) (v : List Arg) :
    W × Writer :=
  if w.err = none then
    let r := colorsCall output ⟨PrintFn.Fprintln, c, C.Default, v⟩
    (⟨r.2⟩, r.1)
  else (w, output)

/-- The method `w.print`. -/
def W.print (w : W) (C : Colors) (output : Writer) (c : Color) (v : List Arg) :
    W × Writer :=
  if w.err = none then
    let r := colorsCall output ⟨PrintFn.Fprint, c, C.Default, v⟩
    (⟨r.2⟩, r.1)
  else (w, output)

/-- The method `w.printf`. -/
def W.printf (w : W) (C : Colors) (output : Writer) (c : Color) (format : Bytes)
    (v : List Arg) : W × Writer :=
  if w.err = none then
    let r := colorsCall output ⟨PrintFn.Fprintf format, c, C.Default, v⟩
    (⟨r.2⟩, r.1)
  else (w, output)

/-- The method `w.read`: returns the string read, the updated `w` and the updated
prompt (whose reader has advanced). -/
def W.read (w : W) (p : Prompt) : Except Panic (Bytes × W × Prompt) :=
  if w.err ≠ none then Except.ok ([], w, p)
  else
    let r := ReadString p.reader p.delim
    let p1 : Prompt := ⟨r.rest, p.output, p.delim, p.defaultColor⟩
    let w1 : W := ⟨r.err⟩
    if w1.err ≠ none then Except.ok ([], w1, p1)
    else (sliceTo r.line ((r.line.length : Int) - 1)).map (fun v => (v, w1, p1))

/-! ### String literals of `prompt.go` (UTF-8) -/

/-- The literal `"（"`. -/
def litOpen : Bytes := [239, 188, 136]

/-- The literal `"）"`. -/
def litClose : Bytes := [239, 188, 137]

/-- The literal `"："`. -/
def litColon : Bytes := [239, 188, 154]

/-- The literal `"）："`. -/
def litCloseColon : Bytes := [239, 188, 137, 239, 188, 154]

/-- The format `"（%d）"`. -/
def fmtIndex : Bytes := [239, 188, 136, 37, 100, 239, 188, 137]

/-- The format `"（%s）"`. -/
def fmtKey : Bytes := [239, 188, 136, 37, 115, 239, 188, 137]

/-- The format `"%s\n"`. -/
def fmtLine : Bytes := [37, 115, 10]

/-- The literal `"请输入你的选择项，多项请用半角逗号（,）分隔："`. -/
def litChoose : Bytes :=
  [232, 175, 183, 232, 190, 147, 229, 133, 165, 228, 189, 160, 231, 154, 132, 233, 128, 137,
   230, 139, 169, 233, 161, 185, 239, 188, 140, 229, 164, 154, 233, 161, 185, 232, 175, 183,
   231, 148, 168, 229, 141, 138, 232, 167, 146, 233, 128, 151, 229, 143, 183, 239, 188, 136,
   44, 239, 188, 137, 229, 136, 134, 233, 154, 148, 239, 188, 154]

/-- The literal `"yes"`. -/
def litYes : Bytes := [121, 101, 115]

/-- The literal `"y"`. -/
def litY : Bytes := [121]

/-- The literal `"no"`. -/
def litNo : Bytes := [110, 111]

/-- The literal `"n"`. -/
def litN : Bytes := [110]

/-! ### Standard-library functions used by `prompt.go` -/

/-- Whether every byte of the string is below `utf8.RuneSelf`. -/
def isASCII (s : Bytes) : Bool := s.all (fun c => decide (c < 128))

/-- Lower-casing of one ASCII byte. -/
def lowerByte (c : Byte) : Byte := if 65 ≤ c ∧ c ≤ 90 then c + 32 else c

/-- The function `strings.ToLower`: an ASCII-only string is lower-cased byte by byte;
any other string goes through `strings.Map(unicode.ToLower, s)`, which is the parameter
`mapUnicode`. -/
def ToLower (mapUnicode : Bytes → Bytes) (s : Bytes) : Bytes :=
  if isASCII s then s.map lowerByte else mapUnicode s

/-- The function `strings.Split(s, sep)` for a separator of one byte. -/
def Split : Bytes → Byte → List Bytes
  | [], _ => [[]]
  | b :: rest, sep =>
    if b = sep then [] :: Split rest sep
    else
      match Split rest sep with
      | [] => [[b]]
      | t :: ts => (b :: t) :: ts

/-- Digit loop of the fast path of `strconv.Atoi`; `none` is the syntax error. -/
def Atoi.fast : Bytes → Int → Option Int
  | [], n => some n
  | ch :: rest, n =>
    let ch := (ch + 256 - 48) % 256
    if ch > 9 then none else Atoi.fast rest (n * 10 + (ch : Int))

/-- Digit loop of `strconv.ParseUint` for base 10 and 64 bits: a byte that is not a
decimal digit is a syntax error (a letter is a digit of value ten or more, hence outside
base 10); overflow of `uint64` is a range error. -/
def ParseUint.loop : Bytes → Nat → Nat × Option NumErrKind
  | [], n => (n, none)
  | c :: rest, n =>
    if 48 ≤ c ∧ c ≤ 57 then
      let d := c - 48
      if n ≥ (2 ^ 64 - 1) / 10 + 1 then (2 ^ 64 - 1, some NumErrKind.range)
      else
        let n := n * 10
        let n1 := (n + d) % 2 ^ 64
        if n1 < n ∨ n1 > 2 ^ 64 - 1 then (2 ^ 64 - 1, some NumErrKind.range)
        else ParseUint.loop rest n1
    else (0, some NumErrKind.invalid)

/-- The function `strconv.ParseUint(s, 10, 0)`. -/
def ParseUint (s : Bytes) : Nat × Option NumErrKind :=
  if s = [] then (0, some NumErrKind.invalid) else ParseUint.loop s 0

/-- The function `strconv.ParseInt(s, 10, 0)`. -/
def ParseInt (s : Bytes) : Int × Option NumErrKind :=
  match s with
  | [] => (0, some NumErrKind.invalid)
  | c :: rest =>
    let neg := decide (c = 45)
    let s1 := if c = 43 ∨ c = 45 then rest else s
    let r := ParseUint s1
    if r.2 = some NumErrKind.invalid then (0, some NumErrKind.invalid)
    else
      let cutoff : Nat := 2 ^ 63
      if !neg && decide (r.1 ≥ cutoff) then ((cutoff : Int) - 1, some NumErrKind.range)
      else if neg && decide (r.1 > cutoff) then (-(cutoff : Int), some NumErrKind.range)
      else (if neg then -(r.1 : Int) else (r.1 : Int), none)

/-- The function `strconv.Atoi` on a platform whose `int` has 64 bits. -/
def Atoi (s : Bytes) : Int × Option GoError :=
  if 0 < s.length ∧ s.length < 19 then
    match s with
    | [] => (0, some (GoError.numError s NumErrKind.invalid))
    | c :: rest =>
      let s1 := if c = 45 ∨ c = 43 then rest else s
      if (c = 45 ∨ c = 43) ∧ s1.length < 1 then
        (0, some (GoError.numError s NumErrKind.invalid))
      else
        match Atoi.fast s1 0 with
        | none => (0, some (GoError.numError s NumErrKind.invalid))
        | some n => (if c = 45 then -n else n, none)
  else
    let r := ParseInt s
    (r.1, r.2.map (GoError.numError s))

/-! ### The question methods -/

/-- The function `inIntSlice`. -/
def inIntSlice (v : Int) : List Int → Bool
  | [] => false
  | val :: vals => if val = v then true else inIntSlice v vals

/-- The function `inStringSlice`. -/
def inStringSlice (v : Bytes) : List Bytes → Bool
  | [] => false
  | val :: vals => if val = v then true else inStringSlice v vals

/-- What a question method hands back: its two Go results and the prompt afterwards. -/
structure Answer (α : Type) where
  value : α
  err : Option GoError
  prompt : Prompt
deriving DecidableEq, Repr

/-- The method `Prompt.String`. -/
def Prompt.String (C : Colors) (p : Prompt) (q def_ : Bytes) : Except Panic (Answer Bytes) :=
  let w : W := ⟨none⟩
  let s := w.print C p.output C.Default [Arg.str q]
  let s := if def_ ≠ [] then
      s.1.print C s.2 p.defaultColor [Arg.str litOpen, Arg.str def_, Arg.str litClose]
    else s
  let s := s.1.print C s.2 C.Default [Arg.str litColon]
  match s.1.read ⟨p.reader, s.2, p.delim, p.defaultColor⟩ with
  | Except.error e => Except.error e
  | Except.ok (v, w, p) =>
    if w.err ≠ none then Except.ok ⟨[], w.err, p⟩
    else
      let v := if v = [] then def_ else v
      Except.ok ⟨v, none, p⟩

/-- The method `Prompt.Bool`; `mapUnicode` is the non-ASCII branch of `strings.ToLower`. -/
def Prompt.Bool (C : Colors) (mapUnicode : Bytes → Bytes) (p : Prompt) (q : Bytes)
    (def_ : Bool) : Except Panic (Answer Bool) :=
  let w : W := ⟨none⟩
  let s := w.print C p.output C.Default [Arg.str q]
  let str : Bytes := if !def_ then [78] else [89]
  let s := s.1.print C s.2 p.defaultColor [Arg.str litOpen, Arg.str str, Arg.str litCloseColon]
  let s := s.1.print C s.2 C.Default [Arg.str litColon]
  match s.1.read ⟨p.reader, s.2, p.delim, p.defaultColor⟩ with
  | Except.error e => Except.error e
  | Except.ok (val, w, p) =>
    if w.err ≠ none then Except.ok ⟨false, w.err, p⟩
    else
      let low := ToLower mapUnicode val
      if low = litYes ∨ low = litY then Except.ok ⟨true, none, p⟩
      else if low = litNo ∨ low = litN then Except.ok ⟨false, none, p⟩
      else Except.ok ⟨def_, none, p⟩

/-- The printing loop of `Prompt.Slice`, from index `i` on. -/
def Prompt.Slice.printLoop (C : Colors) (defaultColor : Color) (def_ : List Int) :
    List Bytes → Int → W × Writer → W × Writer
  | [], _, s => s
  | v :: vs, i, s =>
    let c := if inIntSlice i def_ then defaultColor else C.Default
    let s := s.1.printf C s.2 c fmtIndex [Arg.int i]
    let s := s.1.printf C s.2 C.Default fmtLine [Arg.str v]
    Prompt.Slice.printLoop C defaultColor def_ vs (i + 1) s

/-- The parsing loop of `Prompt.Slice` over the tokens still to parse. -/
def Prompt.Slice.parseLoop : List Bytes → List Int → List Int × Option GoError
  | [], selected => (selected, none)
  | v :: vs, selected =>
    match Atoi v with
    | (_, some err) => ([], some err)
    | (vv, none) => Prompt.Slice.parseLoop vs (selected ++ [vv])

/-- The method `Prompt.Slice`. -/
def Prompt.Slice (C : Colors) (p : Prompt) (q : Bytes) (slice : List Bytes)
    (def_ : List Int) : Except Panic (Answer (List Int)) :=
  let w : W := ⟨none⟩
  let s := w.println C p.output C.Default [Arg.str q]
  let s := Prompt.Slice.printLoop C p.defaultColor def_ slice 0 s
  let s := s.1.print C s.2 C.Default [Arg.str litChoose]
  match s.1.read ⟨p.reader, s.2, p.delim, p.defaultColor⟩ with
  | Except.error e => Except.error e
  | Except.ok (val, w, p) =>
    if w.err ≠ none then Except.ok ⟨[], w.err, p⟩
    else if val = [] then Except.ok ⟨def_, none, p⟩
    else
      let r := Prompt.Slice.parseLoop (Split val 44) []
      Except.ok ⟨r.1, r.2, p⟩

/-- The printing loop of `Prompt.Map`; the list holds the entries of the map in the
order in which this `range` visits them. -/
def Prompt.Map.printLoop (C : Colors) (defaultColor : Color) (def_ : List Bytes) :
    List (Bytes × Bytes) → W × Writer → W × Writer
  | [], s => s
  | (k, v) :: kvs, s =>
    let c := if inStringSlice k def_ then defaultColor else C.Default
    let s := s.1.printf C s.2 c fmtKey [Arg.str k]
    let s := s.1.printf C s.2 C.Default fmtLine [Arg.str v]
    Prompt.Map.printLoop C defaultColor def_ kvs s

/-- The method `Prompt.Map`; `maps` lists the entries of the Go map in the order in which
the `range` statement of this call visits them. -/
def Prompt.Map (C : Colors) (p : Prompt) (q : Bytes) (maps : List (Bytes × Bytes))
    (def_ : List Bytes) : Except Panic (Answer (List Bytes)) :=
  let w : W := ⟨none⟩
  let s := w.println C p.output C.Default [Arg.str q]
  let s := Prompt.Map.printLoop C p.defaultColor def_ maps s
  let s := s.1.print C s.2 C.Default [Arg.str litChoose]
  match s.1.read ⟨p.reader, s.2, p.delim, p.defaultColor⟩ with
  | Except.error e => Except.error e
  | Except.ok (val, w, p) =>
    if w.err ≠ none then Except.ok ⟨[], w.err, p⟩
    else if val = [] then Except.ok ⟨def_, none, p⟩
    else Except.ok ⟨Split val 44, none, p⟩

/-! ## Package `ansi` -/

/-- Modelled from the spec: the function `SGR` and the constant `Reset` of package `ansi`
are not among the sources (only `sgr_test.go` is). An empty list of codes gives the fixed
reset sequence `Reset`; otherwise the result is ESC, `[`, the codes joined by `;` in input
order, and `m`. -/
def SGR (Reset : Bytes) (codes : List Bytes) : Bytes :=
  if codes = [] then Reset else [27, 91] ++ List.intercalate [59] codes ++ [109]

/-! ## Derived descriptions used in the proofs -/

/-- Sending a list of print calls through the error cursor, one after the other: a call
reaches the sink only while no error is recorded. -/
def runCalls : List PrintCall → W × Writer → W × Writer
  | [], s => s
  | c :: cs, s =>
    runCalls cs (if s.1.err = none then ((⟨(colorsCall s.2 c).2⟩ : W), (colorsCall s.2 c).1) else s)

/-- The print calls of `Prompt.String`, in order. -/
def callsString (C : Colors) (p : Prompt) (q def_ : Bytes) : List PrintCall :=
  [⟨PrintFn.Fprint, C.Default, C.Default, [Arg.str q]⟩] ++
  (if def_ ≠ [] then
    [⟨PrintFn.Fprint, p.defaultColor, C.Default,
      [Arg.str litOpen, Arg.str def_, Arg.str litClose]⟩]
   else []) ++
  [⟨PrintFn.Fprint, C.Default, C.Default, [Arg.str litColon]⟩]

/-- The print calls of `Prompt.Bool`, in order. -/
def callsBool (C : Colors) (p : Prompt) (q : Bytes) (def_ : Bool) : List PrintCall :=
  [⟨PrintFn.Fprint, C.Default, C.Default, [Arg.str q]⟩,
   ⟨PrintFn.Fprint, p.defaultColor, C.Default,
      [Arg.str litOpen, Arg.str (if !def_ then [78] else [89]), Arg.str litCloseColon]⟩,
   ⟨PrintFn.Fprint, C.Default, C.Default, [Arg.str litColon]⟩]

/-- The print calls of the loop of `Prompt.Slice`, from index `i` on. -/
def loopCallsSlice (C : Colors) (defaultColor : Color) (def_ : List Int) :
    List Bytes → Int → List PrintCall
  | [], _ => []
  | v :: vs, i =>
    ⟨PrintFn.Fprintf fmtIndex, if inIntSlice i def_ then defaultColor else C.Default,
      C.Default, [Arg.int i]⟩ ::
    ⟨PrintFn.Fprintf fmtLine, C.Default, C.Default, [Arg.str v]⟩ ::
    loopCallsSlice C defaultColor def_ vs (i + 1)

/-- The print calls of `Prompt.Slice`, in order. -/
def callsSlice (C : Colors) (p : Prompt) (q : Bytes) (slice : List Bytes)
    (def_ : List Int) : List PrintCall :=
  [⟨PrintFn.Fprintln, C.Default, C.Default, [Arg.str q]⟩] ++
  loopCallsSlice C p.defaultColor def_ slice 0 ++
  [⟨PrintFn.Fprint, C.Default, C.Default, [Arg.str litChoose]⟩]

/-- The print calls of the loop of `Prompt.Map`. -/
def loopCallsMap (C : Colors) (defaultColor : Color) (def_ : List Bytes) :
    List (Bytes × Bytes) → List PrintCall
  | [] => []
  | (k, v) :: kvs =>
    ⟨PrintFn.Fprintf fmtKey, if inStringSlice k def_ then defaultColor else C.Default,
      C.Default, [Arg.str k]⟩ ::
    ⟨PrintFn.Fprintf fmtLine, C.Default, C.Default, [Arg.str v]⟩ ::
    loopCallsMap C defaultColor def_ kvs

/-- The print calls of `Prompt.Map`, in order. -/
def callsMap (C : Colors) (p : Prompt) (q : Bytes) (maps : List (Bytes × Bytes))
    (def_ : List Bytes) : List PrintCall :=
  [⟨PrintFn.Fprintln, C.Default, C.Default, [Arg.str q]⟩] ++
  loopCallsMap C p.defaultColor def_ maps ++
  [⟨PrintFn.Fprint, C.Default, C.Default, [Arg.str litChoose]⟩]

/-- The decimal digits of a natural number, most significant first ("0" for zero). -/
def natDigits (n : Nat) : Bytes :=
  if n = 0 then [48] else ((Nat.digits 10 n).reverse).map (fun d => d + 48)

/-- The decimal rendering of an integer, as `strconv.Itoa` writes it. -/
def Itoa (i : Int) : Bytes :=
  if i < 0 then 45 :: natDigits i.natAbs else natDigits i.natAbs

/-! ## Auxiliary facts -/

instance instDecidableEqExcept {ε α : Type} [DecidableEq ε] [DecidableEq α] :
    DecidableEq (Except ε α)
  | Except.ok a, Except.ok b =>
    if h : a = b then isTrue (by rw [h]) else isFalse (fun h1 => h (Except.ok.inj h1))
  | Except.error a, Except.error b =>
    if h : a = b then isTrue (by rw [h]) else isFalse (fun h1 => h (Except.error.inj h1))
  | Except.ok _, Except.error _ => isFalse (fun h => by cases h)
  | Except.error _, Except.ok _ => isFalse (fun h => by cases h)

/-! ### Reading -/

theorem ReadString_line (pre : Bytes) (d : Byte) (rest : Reader) (h : d ∉ pre) :
    ReadString (Reader.ofBytes pre ++ ReadEvent.data d :: rest) d = ⟨pre ++ [d], none, rest⟩ := by
  induction pre with
  | nil => simp [Reader.ofBytes, ReadString]
  | cons b bs ih =>
    have hb : b ≠ d := fun hbd => h (by simp [hbd])
    have hbs : d ∉ bs := fun hm => h (by simp [hm])
    have ih1 := ih hbs
    simp only [Reader.ofBytes] at ih1
    simp [Reader.ofBytes, ReadString, hb, ih1]

theorem ReadString_no_delim (r : Reader) (d : Byte) (h : ∀ ev ∈ r, ev ≠ ReadEvent.data d) :
    (ReadString r d).err ≠ none := by
  induction r with
  | nil => simp [ReadString]
  | cons ev evs ih =>
    cases ev with
    | fail e => simp [ReadString]
    | data b =>
      have hb : b ≠ d := fun hbd => h (ReadEvent.data b) (by simp) (by rw [hbd])
      have := ih (fun ev hev => h ev (by simp [hev]))
      simp [ReadString, hb, this]

theorem ReadString_bytes_no_delim (s : Bytes) (d : Byte) (h : d ∉ s) :
    ReadString (Reader.ofBytes s) d = ⟨s, some GoError.EOF, []⟩ := by
  induction s with
  | nil => simp [Reader.ofBytes, ReadString]
  | cons b bs ih =>
    have hb : b ≠ d := fun hbd => h (by simp [hbd])
    have ih1 := ih (fun hm => h (by simp [hm]))
    simp only [Reader.ofBytes] at ih1
    simp [Reader.ofBytes, ReadString, hb, ih1]

theorem read_line (w : W) (p : Prompt) (pre : Bytes) (rest : Reader)
    (hw : w.err = none) (hd : p.delim ∉ pre)
    (hin : p.reader = Reader.ofBytes pre ++ ReadEvent.data p.delim :: rest) :
    w.read p = Except.ok (pre, ⟨none⟩, ⟨rest, p.output, p.delim, p.defaultColor⟩) := by
  unfold W.read
  rw [hin, ReadString_line pre p.delim rest hd]
  simp [hw, sliceTo]
  rfl

theorem read_error (w : W) (p : Prompt) (e : GoError) (hw : w.err = none)
    (he : (ReadString p.reader p.delim).err = some e) :
    w.read p = Except.ok ([], ⟨some e⟩,
      ⟨(ReadString p.reader p.delim).rest, p.output, p.delim, p.defaultColor⟩) := by
  unfold W.read
  simp [hw, he]

theorem ReadString_ok_ne_nil (r : Reader) (d : Byte) (h : (ReadString r d).err = none) :
    (ReadString r d).line ≠ [] := by
  cases r with
  | nil => simp [ReadString] at h
  | cons ev evs =>
    cases ev with
    | fail e => simp [ReadString] at h
    | data b =>
      rw [ReadString]
      split <;> simp

theorem read_total (w : W) (p : Prompt) : ∃ r, w.read p = Except.ok r := by
  unfold W.read
  by_cases hw : w.err = none
  · cases he : (ReadString p.reader p.delim).err with
    | some e => simp [hw, he]
    | none =>
      have hne := ReadString_ok_ne_nil p.reader p.delim he
      have hlen : 1 ≤ (ReadString p.reader p.delim).line.length :=
        Nat.succ_le_of_lt (List.length_pos.mpr hne)
      have h1 : (0 : Int) ≤ ((ReadString p.reader p.delim).line.length : Int) - 1 := by omega
      simp [hw, he, sliceTo, h1, Except.map]
  · simp [hw]

theorem read_poisoned (w : W) (p : Prompt) (e : GoError) (hw : w.err = some e) :
    w.read p = Except.ok ([], w, p) := by
  unfold W.read
  simp [hw]

/-! ### Printing -/

theorem runCalls_append (a b : List PrintCall) (s : W × Writer) :
    runCalls (a ++ b) s = runCalls b (runCalls a s) := by
  induction a generalizing s with
  | nil => rfl
  | cons c cs ih =>
    simp only [List.cons_append, runCalls]
    exact ih _

theorem runCalls_poisoned (cs : List PrintCall) (s : W × Writer) (h : s.1.err ≠ none) :
    runCalls cs s = s := by
  induction cs with
  | nil => rfl
  | cons c cs ih => simp only [runCalls, h, if_false, ih]

theorem runCalls_ok (cs : List PrintCall) (o : Writer)
    (h : ∀ r ∈ o.outcomes.take cs.length, r = none) :
    runCalls cs (⟨none⟩, o) = (⟨none⟩, ⟨o.calls ++ cs, o.outcomes.drop cs.length⟩) := by
  induction cs generalizing o with
  | nil => simp [runCalls]
  | cons c cs ih =>
    obtain ⟨calls, outs⟩ := o
    cases outs with
    | nil =>
      simp only [runCalls, colorsCall, if_true]
      rw [ih _ (by simp)]
      simp
    | cons r rs =>
      have hr : r = none := h r (by simp)
      subst hr
      simp only [runCalls, colorsCall, if_true]
      rw [ih _ (fun r hr => h r (by simp [hr]))]
      simp

theorem runCalls_fail (cs : List PrintCall) (o : Writer) (k : Nat) (e : GoError)
    (more : List (Option GoError))
    (ho : o.outcomes = List.replicate k none ++ some e :: more) (hk : k < cs.length) :
    runCalls cs (⟨none⟩, o) = (⟨some e⟩, ⟨o.calls ++ cs.take (k + 1), more⟩) := by
  induction cs generalizing o k with
  | nil => simp at hk
  | cons c cs ih =>
    obtain ⟨calls, outs⟩ := o
    simp only at ho
    subst ho
    cases k with
    | zero =>
      simp only [runCalls, colorsCall, List.replicate, List.nil_append, if_true]
      rw [runCalls_poisoned _ _ (by simp)]
      simp
    | succ k =>
      simp only [runCalls, colorsCall, List.replicate, List.cons_append, if_true]
      rw [ih _ k rfl (by simpa using hk)]
      simp

theorem runCalls_succeeds (cs : List PrintCall) (o : Writer) (h : o.succeeds) :
    runCalls cs (⟨none⟩, o) = (⟨none⟩, ⟨o.calls ++ cs, o.outcomes.drop cs.length⟩) :=
  runCalls_ok cs o (fun r hr => h r (List.mem_of_mem_take hr))

theorem Slice_printLoop_eq (C : Colors) (dc : Color) (def_ : List Int) (vs : List Bytes)
    (i : Int) (s : W × Writer) :
    Prompt.Slice.printLoop C dc def_ vs i s
      = runCalls (loopCallsSlice C dc def_ vs i) s := by
  induction vs generalizing i s with
  | nil => rfl
  | cons v vs ih =>
    simp only [Prompt.Slice.printLoop, loopCallsSlice, runCalls, ih, W.printf]

theorem Map_printLoop_eq (C : Colors) (dc : Color) (def_ : List Bytes)
    (kvs : List (Bytes × Bytes)) (s : W × Writer) :
    Prompt.Map.printLoop C dc def_ kvs s
      = runCalls (loopCallsMap C dc def_ kvs) s := by
  induction kvs generalizing s with
  | nil => rfl
  | cons kv kvs ih =>
    obtain ⟨k, v⟩ := kv
    simp only [Prompt.Map.printLoop, loopCallsMap, runCalls, ih, W.printf]

theorem Slice_loopCalls_length (C : Colors) (dc : Color) (def_ : List Int) (vs : List Bytes)
    (i : Int) : (loopCallsSlice C dc def_ vs i).length = 2 * vs.length := by
  induction vs generalizing i with
  | nil => rfl
  | cons v vs ih => simp only [loopCallsSlice, List.length_cons, ih]; omega

theorem Map_loopCalls_length (C : Colors) (dc : Color) (def_ : List Bytes)
    (kvs : List (Bytes × Bytes)) :
    (loopCallsMap C dc def_ kvs).length = 2 * kvs.length := by
  induction kvs with
  | nil => rfl
  | cons kv kvs ih =>
    obtain ⟨k, v⟩ := kv
    simp only [loopCallsMap, List.length_cons, ih]; omega

theorem print_eq (w : W) (C : Colors) (o : Writer) (c : Color) (v : List Arg) :
    w.print C o c v = runCalls [⟨PrintFn.Fprint, c, C.Default, v⟩] (w, o) := by
  simp only [W.print, runCalls]

theorem println_eq (w : W) (C : Colors) (o : Writer) (c : Color) (v : List Arg) :
    w.println C o c v = runCalls [⟨PrintFn.Fprintln, c, C.Default, v⟩] (w, o) := by
  simp only [W.println, runCalls]

theorem String_phase (C : Colors) (p : Prompt) (q def_ : Bytes) :
    W.print
        (if def_ ≠ [] then
          W.print (W.print ⟨none⟩ C p.output C.Default [Arg.str q]).1 C
            (W.print ⟨none⟩ C p.output C.Default [Arg.str q]).2 p.defaultColor
            [Arg.str litOpen, Arg.str def_, Arg.str litClose]
        else W.print ⟨none⟩ C p.output C.Default [Arg.str q]).1 C
        (if def_ ≠ [] then
          W.print (W.print ⟨none⟩ C p.output C.Default [Arg.str q]).1 C
            (W.print ⟨none⟩ C p.output C.Default [Arg.str q]).2 p.defaultColor
            [Arg.str litOpen, Arg.str def_, Arg.str litClose]
        else W.print ⟨none⟩ C p.output C.Default [Arg.str q]).2 C.Default [Arg.str litColon]
      = runCalls (callsString C p q def_) (⟨none⟩, p.output) := by
  by_cases hd : def_ = []
  · simp only [hd, callsString, print_eq, runCalls_append, ne_eq, not_true_eq_false, if_false]
    rfl
  · simp only [hd, callsString, print_eq, runCalls_append, ne_eq, not_false_eq_true, if_true]

theorem String_of_read (C : Colors) (p : Prompt) (q def_ : Bytes) (w1 w2 : W) (o1 : Writer)
    (v : Bytes) (p2 : Prompt)
    (hrun : runCalls (callsString C p q def_) (⟨none⟩, p.output) = (w1, o1))
    (hread : w1.read ⟨p.reader, o1, p.delim, p.defaultColor⟩ = Except.ok (v, w2, p2)) :
    Prompt.String C p q def_ =
      if w2.err ≠ none then Except.ok ⟨[], w2.err, p2⟩
      else Except.ok ⟨if v = [] then def_ else v, none, p2⟩ := by
  unfold Prompt.String
  simp only [String_phase, hrun, hread]

theorem Bool_phase (C : Colors) (p : Prompt) (q : Bytes) (def_ : Bool) :
    W.print
        (W.print (W.print ⟨none⟩ C p.output C.Default [Arg.str q]).1 C
          (W.print ⟨none⟩ C p.output C.Default [Arg.str q]).2 p.defaultColor
          [Arg.str litOpen, Arg.str (if !def_ then [78] else [89]), Arg.str litCloseColon]).1 C
        (W.print (W.print ⟨none⟩ C p.output C.Default [Arg.str q]).1 C
          (W.print ⟨none⟩ C p.output C.Default [Arg.str q]).2 p.defaultColor
          [Arg.str litOpen, Arg.str (if !def_ then [78] else [89]), Arg.str litCloseColon]).2
        C.Default [Arg.str litColon]
      = runCalls (callsBool C p q def_) (⟨none⟩, p.output) := by
  simp only [callsBool, print_eq]
  rfl

theorem Bool_of_read (C : Colors) (mapUnicode : Bytes → Bytes) (p : Prompt) (q : Bytes)
    (def_ : Bool) (w1 w2 : W) (o1 : Writer) (v : Bytes) (p2 : Prompt)
    (hrun : runCalls (callsBool C p q def_) (⟨none⟩, p.output) = (w1, o1))
    (hread : w1.read ⟨p.reader, o1, p.delim, p.defaultColor⟩ = Except.ok (v, w2, p2)) :
    Prompt.Bool C mapUnicode p q def_ =
      if w2.err ≠ none then Except.ok ⟨false, w2.err, p2⟩
      else if ToLower mapUnicode v = litYes ∨ ToLower mapUnicode v = litY then
        Except.ok ⟨true, none, p2⟩
      else if ToLower mapUnicode v = litNo ∨ ToLower mapUnicode v = litN then
        Except.ok ⟨false, none, p2⟩
      else Except.ok ⟨def_, none, p2⟩ := by
  unfold Prompt.Bool
  simp only [Bool_phase, hrun, hread]

theorem Slice_phase (C : Colors) (p : Prompt) (q : Bytes) (slice : List Bytes)
    (def_ : List Int) :
    W.print
        (Prompt.Slice.printLoop C p.defaultColor def_ slice 0
          (W.println ⟨none⟩ C p.output C.Default [Arg.str q])).1 C
        (Prompt.Slice.printLoop C p.defaultColor def_ slice 0
          (W.println ⟨none⟩ C p.output C.Default [Arg.str q])).2 C.Default [Arg.str litChoose]
      = runCalls (callsSlice C p q slice def_) (⟨none⟩, p.output) := by
  simp only [callsSlice, print_eq, println_eq, Slice_printLoop_eq, runCalls_append]

theorem Slice_of_read (C : Colors) (p : Prompt) (q : Bytes) (slice : List Bytes)
    (def_ : List Int) (w1 w2 : W) (o1 : Writer) (v : Bytes) (p2 : Prompt)
    (hrun : runCalls (callsSlice C p q slice def_) (⟨none⟩, p.output) = (w1, o1))
    (hread : w1.read ⟨p.reader, o1, p.delim, p.defaultColor⟩ = Except.ok (v, w2, p2)) :
    Prompt.Slice C p q slice def_ =
      if w2.err ≠ none then Except.ok ⟨[], w2.err, p2⟩
      else if v = [] then Except.ok ⟨def_, none, p2⟩
      else Except.ok ⟨(Prompt.Slice.parseLoop (Split v 44) []).1,
        (Prompt.Slice.parseLoop (Split v 44) []).2, p2⟩ := by
  unfold Prompt.Slice
  simp only [Slice_phase, hrun, hread]

theorem Map_phase (C : Colors) (p : Prompt) (q : Bytes) (maps : List (Bytes × Bytes))
    (def_ : List Bytes) :
    W.print
        (Prompt.Map.printLoop C p.defaultColor def_ maps
          (W.println ⟨none⟩ C p.output C.Default [Arg.str q])).1 C
        (Prompt.Map.printLoop C p.defaultColor def_ maps
          (W.println ⟨none⟩ C p.output C.Default [Arg.str q])).2 C.Default [Arg.str litChoose]
      = runCalls (callsMap C p q maps def_) (⟨none⟩, p.output) := by
  simp only [callsMap, print_eq, println_eq, Map_printLoop_eq, runCalls_append]

theorem Map_of_read (C : Colors) (p : Prompt) (q : Bytes) (maps : List (Bytes × Bytes))
    (def_ : List Bytes) (w1 w2 : W) (o1 : Writer) (v : Bytes) (p2 : Prompt)
    (hrun : runCalls (callsMap C p q maps def_) (⟨none⟩, p.output) = (w1, o1))
    (hread : w1.read ⟨p.reader, o1, p.delim, p.defaultColor⟩ = Except.ok (v, w2, p2)) :
    Prompt.Map C p q maps def_ =
      if w2.err ≠ none then Except.ok ⟨[], w2.err, p2⟩
      else if v = [] then Except.ok ⟨def_, none, p2⟩
      else Except.ok ⟨Split v 44, none, p2⟩ := by
  unfold Prompt.Map
  simp only [Map_phase, hrun, hread]

/-! ### Splitting -/

theorem Split_ne_nil (s : Bytes) (sep : Byte) : Split s sep ≠ [] := by
  cases s with
  | nil => simp [Split]
  | cons b rest =>
    unfold Split
    split
    · simp
    · split <;> simp

theorem Split_no_sep (s : Bytes) (sep : Byte) (h : sep ∉ s) : Split s sep = [s] := by
  induction s with
  | nil => rfl
  | cons b rest ih =>
    have hb : b ≠ sep := fun hbd => h (by simp [hbd])
    have ih1 := ih (fun hm => h (by simp [hm]))
    simp [Split, hb, ih1]

theorem Split_append_sep (t r : Bytes) (sep : Byte) (h : sep ∉ t) :
    Split (t ++ sep :: r) sep = t :: Split r sep := by
  induction t with
  | nil => simp [Split]
  | cons b rest ih =>
    have hb : b ≠ sep := fun hbd => h (by simp [hbd])
    have ih1 := ih (fun hm => h (by simp [hm]))
    simp [Split, hb, ih1]

theorem Split_intercalate (ts : List Bytes) (sep : Byte) (hne : ts ≠ [])
    (h : ∀ t ∈ ts, sep ∉ t) : Split (List.intercalate [sep] ts) sep = ts := by
  induction ts with
  | nil => exact absurd rfl hne
  | cons t ts ih =>
    cases ts with
    | nil =>
      simpa [List.intercalate, List.intersperse] using Split_no_sep t sep (h t (by simp))
    | cons t2 ts =>
      have ih1 := ih (by simp) (fun x hx => h x (by simp [hx]))
      have : List.intercalate [sep] (t :: t2 :: ts)
          = t ++ sep :: List.intercalate [sep] (t2 :: ts) := by
        simp [List.intercalate, List.intersperse]
      rw [this, Split_append_sep t _ sep (h t (by simp)), ih1]

theorem intercalate_Split (s : Bytes) (sep : Byte) :
    List.intercalate [sep] (Split s sep) = s := by
  induction s with
  | nil => simp [Split, List.intercalate, List.intersperse]
  | cons b rest ih =>
    unfold Split
    split
    · rename_i hb
      obtain ⟨t, ts, hts⟩ := List.exists_cons_of_ne_nil (Split_ne_nil rest sep)
      rw [hts] at ih ⊢
      rw [← ih, hb]
      simp [List.intercalate, List.intersperse]
    · obtain ⟨t, ts, hts⟩ := List.exists_cons_of_ne_nil (Split_ne_nil rest sep)
      rw [hts] at ih
      simp only [hts]
      rw [← ih]
      cases ts <;> simp [List.intercalate, List.intersperse]

theorem Split_no_sep_mem (s : Bytes) (sep : Byte) : ∀ t ∈ Split s sep, sep ∉ t := by
  induction s with
  | nil => simp [Split]
  | cons b rest ih =>
    unfold Split
    split
    · intro t ht
      rcases List.mem_cons.mp ht with h | h
      · simp [h]
      · exact ih t h
    · rename_i hb
      split
      · intro t ht
        simp at ht
        simp [ht, Ne.symm hb]
      · rename_i t0 ts hts
        rw [hts] at ih
        intro t ht
        rcases List.mem_cons.mp ht with h | h
        · have := ih t0 (by simp)
          simp [h, Ne.symm hb, this]
        · exact ih t (by simp [h])


/-! ## The claims about reading and construction -/

/-- C6: a read on a cursor without error, on input `pre ++ [d] ++ rest` with no `d` in `pre`,
returns exactly `pre`, records no error and leaves `rest` as the remaining input; on the
input "hello\nworld\n\n" with delimiter '\n' three reads in a row return "hello", "world"
and "", and a fourth returns "" with an error recorded. On no input at all does the slice
expression of `read` go out of range. -/
theorem read_returns_line :
    (∀ (w : W) (p : Prompt) (pre : Bytes) (rest : Reader), w.err = none → p.delim ∉ pre →
      p.reader = Reader.ofBytes pre ++ ReadEvent.data p.delim :: rest →
      w.read p = Except.ok (pre, ⟨none⟩, ⟨rest, p.output, p.delim, p.defaultColor⟩)) ∧
    (∀ (o : Writer) (c : Color),
      W.read ⟨none⟩
          ⟨Reader.ofBytes [104, 101, 108, 108, 111, 10, 119, 111, 114, 108, 100, 10, 10], o, 10, c⟩
        = Except.ok ([104, 101, 108, 108, 111], ⟨none⟩,
            ⟨Reader.ofBytes [119, 111, 114, 108, 100, 10, 10], o, 10, c⟩) ∧
      W.read ⟨none⟩ ⟨Reader.ofBytes [119, 111, 114, 108, 100, 10, 10], o, 10, c⟩
        = Except.ok ([119, 111, 114, 108, 100], ⟨none⟩, ⟨Reader.ofBytes [10], o, 10, c⟩) ∧
      W.read ⟨none⟩ ⟨Reader.ofBytes [10], o, 10, c⟩
        = Except.ok ([], ⟨none⟩, ⟨Reader.ofBytes [], o, 10, c⟩) ∧
      W.read ⟨none⟩ ⟨Reader.ofBytes [], o, 10, c⟩
        = Except.ok ([], ⟨some GoError.EOF⟩, ⟨Reader.ofBytes [], o, 10, c⟩)) ∧
    (∀ (w : W) (p : Prompt), ∃ r, w.read p = Except.ok r) := by
  refine ⟨read_line, fun o c => ⟨?_, ?_, ?_, ?_⟩, read_total⟩
  · exact read_line ⟨none⟩ _ [104, 101, 108, 108, 111]
      (Reader.ofBytes [119, 111, 114, 108, 100, 10, 10]) rfl (by simp) rfl
  · exact read_line ⟨none⟩ _ [119, 111, 114, 108, 100] (Reader.ofBytes [10]) rfl (by simp) rfl
  · exact read_line ⟨none⟩ _ [] (Reader.ofBytes []) rfl (by simp) rfl
  · rfl

/-- C6, at the first line of the input "hello\nworld\n\n". -/
theorem read_returns_line_witness :
    W.read ⟨none⟩
        ⟨Reader.ofBytes [104, 101, 108, 108, 111, 10, 119, 111, 114, 108, 100, 10, 10],
          ⟨[], []⟩, 10, 2⟩
      = Except.ok ([104, 101, 108, 108, 111], ⟨none⟩,
          ⟨Reader.ofBytes [119, 111, 114, 108, 100, 10, 10], ⟨[], []⟩, 10, 2⟩) :=
  read_returns_line.1 ⟨none⟩
    ⟨Reader.ofBytes [104, 101, 108, 108, 111, 10, 119, 111, 114, 108, 100, 10, 10],
      ⟨[], []⟩, 10, 2⟩
    [104, 101, 108, 108, 111] (Reader.ofBytes [119, 111, 114, 108, 100, 10, 10])
    rfl (by decide) rfl

/-- C7: a read on a cursor without error, on input in which the delimiter does not occur,
returns the empty string and records an error; when the input is a plain run of bytes the
error is end of stream and the bytes before it are not returned; delimiter 'x' on the
input "hello\nworld\n\n" gives "" and an error. -/
theorem read_fails_without_delim :
    (∀ (w : W) (p : Prompt), w.err = none → (∀ ev ∈ p.reader, ev ≠ ReadEvent.data p.delim) →
      ∃ e rest, w.read p = Except.ok ([], ⟨some e⟩, ⟨rest, p.output, p.delim, p.defaultColor⟩)) ∧
    (∀ (w : W) (s : Bytes) (o : Writer) (d : Byte) (c : Color), w.err = none → d ∉ s →
      w.read ⟨Reader.ofBytes s, o, d, c⟩ = Except.ok ([], ⟨some GoError.EOF⟩, ⟨[], o, d, c⟩)) ∧
    (∀ (o : Writer) (c : Color),
      W.read ⟨none⟩
          ⟨Reader.ofBytes [104, 101, 108, 108, 111, 10, 119, 111, 114, 108, 100, 10, 10], o, 120, c⟩
        = Except.ok ([], ⟨some GoError.EOF⟩, ⟨[], o, 120, c⟩)) := by
  have h2 : ∀ (w : W) (s : Bytes) (o : Writer) (d : Byte) (c : Color), w.err = none → d ∉ s →
      w.read ⟨Reader.ofBytes s, o, d, c⟩
        = Except.ok ([], ⟨some GoError.EOF⟩, ⟨[], o, d, c⟩) := by
    intro w s o d c hw hd
    have h := read_error w ⟨Reader.ofBytes s, o, d, c⟩ GoError.EOF hw
      (by simp [ReadString_bytes_no_delim s d hd])
    simpa [ReadString_bytes_no_delim s d hd] using h
  refine ⟨?_, h2, fun o c => h2 ⟨none⟩ _ o 120 c rfl (by decide)⟩
  intro w p hw hno
  have hne := ReadString_no_delim p.reader p.delim hno
  obtain ⟨e, he⟩ := Option.ne_none_iff_exists'.mp hne
  exact ⟨e, _, read_error w p e hw he⟩

/-- C7, at the input "hello\nworld\n\n" read with delimiter 'x'. -/
theorem read_fails_without_delim_witness :
    W.read ⟨none⟩
        ⟨Reader.ofBytes [104, 101, 108, 108, 111, 10, 119, 111, 114, 108, 100, 10, 10],
          ⟨[], []⟩, 120, 2⟩
      = Except.ok ([], ⟨some GoError.EOF⟩, ⟨[], ⟨[], []⟩, 120, 2⟩) :=
  read_fails_without_delim.2.1 ⟨none⟩
    [104, 101, 108, 108, 111, 10, 119, 111, 114, 108, 100, 10, 10] ⟨[], []⟩ 120 2 rfl
    (by decide)

/-- C9: `New` panics exactly when the colour is not valid; with a valid colour it returns
a prompt whose default colour is the given one and whose delimiter is '\n' when the given
delimiter is 0 and the given delimiter otherwise. -/
theorem New_panics_iff_invalid (C : Colors) (delim : Byte) (input : Reader) (output : Writer)
    (c : Color) :
    ((∃ e, New C delim input output c = Except.error e) ↔ C.IsValid c = false) ∧
    (C.IsValid c = true →
      ∃ p, New C delim input output c = Except.ok p ∧ p.defaultColor = c ∧
        p.delim = (if delim = 0 then 10 else delim) ∧ p.reader = input ∧ p.output = output) := by
  unfold New
  cases hv : C.IsValid c <;> simp

/-- C9, at a colour table in which the colours 0 to 8 are valid, for delimiter 0. -/
theorem New_panics_iff_invalid_witness :
    ∃ p, New ⟨0, fun c => decide (0 ≤ c ∧ c < 9)⟩ 0 [] ⟨[], []⟩ 2 = Except.ok p ∧
      p.defaultColor = 2 ∧ p.delim = (if (0 : Byte) = 0 then 10 else 0) ∧ p.reader = [] ∧
      p.output = ⟨[], []⟩ :=
  (New_panics_iff_invalid ⟨0, fun c => decide (0 ≤ c ∧ c < 9)⟩ 0 [] ⟨[], []⟩ 2).2 (by decide)

/-! ## The claim about `ansi.SGR` -/

/-- C10: `SGR` of no code is the reset sequence; of a non-empty list of codes it is ESC,
`[`, the codes joined by `;` in input order, and `m`; of a single code `c` it is ESC `[`
`c` `m`. -/
theorem SGR_format (Reset : Bytes) (codes : List Bytes) (c : Bytes) :
    SGR Reset [] = Reset ∧
    (codes ≠ [] → SGR Reset codes = [27, 91] ++ List.intercalate [59] codes ++ [109]) ∧
    SGR Reset [c] = [27, 91] ++ c ++ [109] ∧
    (∀ a b d : Bytes, SGR Reset [a, b, d] = [27, 91] ++ a ++ [59] ++ b ++ [59] ++ d ++ [109]) := by
  refine ⟨by simp [SGR], fun h => by simp [SGR, h], by simp [SGR, List.intercalate], ?_⟩
  intro a b d
  simp [SGR, List.intercalate]

/-- C10, at the two codes "40" and "31". -/
theorem SGR_format_witness :
    SGR [27, 91, 48, 109] [[52, 48], [51, 49]]
      = [27, 91] ++ List.intercalate [59] [[52, 48], [51, 49]] ++ [109] :=
  (SGR_format [27, 91, 48, 109] [[52, 48], [51, 49]] []).2.1 (by decide)

theorem phase_then_line (cs : List PrintCall) (p : Prompt) (L : Bytes) (rest : Reader)
    (hw : p.output.succeeds) (hL : p.delim ∉ L)
    (hin : p.reader = Reader.ofBytes L ++ ReadEvent.data p.delim :: rest) :
    ∃ o1, runCalls cs (⟨none⟩, p.output) = (⟨none⟩, o1) ∧
      (⟨none⟩ : W).read ⟨p.reader, o1, p.delim, p.defaultColor⟩
        = Except.ok (L, ⟨none⟩, ⟨rest, o1, p.delim, p.defaultColor⟩) :=
  ⟨_, runCalls_succeeds cs p.output hw,
    read_line ⟨none⟩ ⟨p.reader, _, p.delim, p.defaultColor⟩ L rest rfl hL hin⟩

/-! ## The claims about the answers of the question methods -/

/-- C2: when the writes succeed and the input starts with a line `L` (without the
delimiter byte) followed by the delimiter, `String` returns `def` for the empty line and
`L` itself, byte for byte, otherwise, both with a nil error; the line and its delimiter are
consumed. -/
theorem String_answer (C : Colors) (p : Prompt) (q def_ L : Bytes) (rest : Reader)
    (hw : p.output.succeeds) (hL : p.delim ∉ L)
    (hin : p.reader = Reader.ofBytes L ++ ReadEvent.data p.delim :: rest) :
    ∃ a, Prompt.String C p q def_ = Except.ok a ∧ a.err = none ∧
      a.value = (if L = [] then def_ else L) ∧ a.prompt.reader = rest := by
  obtain ⟨o1, hrun, hread⟩ := phase_then_line (callsString C p q def_) p L rest hw hL hin
  rw [String_of_read C p q def_ _ _ _ _ _ hrun hread]
  simp

/-- C2, at the line " a b " (spaces kept) with default "d". -/
theorem String_answer_witness :
    ∃ a, Prompt.String ⟨0, fun c => decide (0 ≤ c ∧ c < 9)⟩
        ⟨Reader.ofBytes [32, 97, 32, 98, 32, 10, 120], ⟨[], []⟩, 10, 2⟩ [113] [100] = Except.ok a ∧
      a.err = none ∧ a.value = (if ([32, 97, 32, 98, 32] : Bytes) = [] then [100] else [32, 97, 32, 98, 32]) ∧
      a.prompt.reader = Reader.ofBytes [120] :=
  String_answer ⟨0, fun c => decide (0 ≤ c ∧ c < 9)⟩
    ⟨Reader.ofBytes [32, 97, 32, 98, 32, 10, 120], ⟨[], []⟩, 10, 2⟩ [113] [100]
    [32, 97, 32, 98, 32] (Reader.ofBytes [120]) (by decide) (by decide) rfl

/-- C1: when the writes succeed and the input starts with a line `L` (without the
delimiter byte) followed by the delimiter, `Bool` returns true when the lower-cased `L` is
"yes" or "y", false when it is "no" or "n", and `def` for every other line, the empty
line included, always with a nil error. -/
theorem Bool_answer (C : Colors) (mapUnicode : Bytes → Bytes) (p : Prompt) (q : Bytes)
    (def_ : Bool) (L : Bytes) (rest : Reader)
    (hw : p.output.succeeds) (hL : p.delim ∉ L)
    (hin : p.reader = Reader.ofBytes L ++ ReadEvent.data p.delim :: rest) :
    ∃ a, Prompt.Bool C mapUnicode p q def_ = Except.ok a ∧ a.err = none ∧
      a.value =
        (if ToLower mapUnicode L = litYes ∨ ToLower mapUnicode L = litY then true
         else if ToLower mapUnicode L = litNo ∨ ToLower mapUnicode L = litN then false
         else def_) ∧
      a.prompt.reader = rest := by
  obtain ⟨o1, hrun, hread⟩ := phase_then_line (callsBool C p q def_) p L rest hw hL hin
  rw [Bool_of_read C mapUnicode p q def_ _ _ _ _ _ hrun hread]
  by_cases h1 : ToLower mapUnicode L = litYes ∨ ToLower mapUnicode L = litY
  · simp [h1]
  · by_cases h2 : ToLower mapUnicode L = litNo ∨ ToLower mapUnicode L = litN
    · simp [h1, h2]
    · simp [h1, h2]

/-- C1, at the line "YES" with default false. -/
theorem Bool_answer_witness :
    ∃ a, Prompt.Bool ⟨0, fun c => decide (0 ≤ c ∧ c < 9)⟩ id
        ⟨Reader.ofBytes [89, 69, 83, 10], ⟨[], []⟩, 10, 2⟩ [113] false = Except.ok a ∧
      a.err = none ∧ a.value = true ∧ a.prompt.reader = [] := by
  obtain ⟨a, h1, h2, h3, h4⟩ := Bool_answer ⟨0, fun c => decide (0 ≤ c ∧ c < 9)⟩ id
    ⟨Reader.ofBytes [89, 69, 83, 10], ⟨[], []⟩, 10, 2⟩ [113] false [89, 69, 83] []
    (by decide) (by decide) rfl
  exact ⟨a, h1, h2, by rw [h3]; decide, h4⟩

/-- C5: when the writes succeed and the input starts with a line `L` (without the
delimiter byte) followed by the delimiter, `Map` returns `def` for the empty line and
otherwise the substrings of `L` between commas, in order, with a nil error; the value is a
function of `L` and `def` alone, whatever the entries of the mapping and the order in
which they are visited. The substrings are those whose join with commas is `L` and which
hold no comma. -/
theorem Map_answer (C : Colors) (p : Prompt) (q : Bytes) (maps : List (Bytes × Bytes))
    (def_ : List Bytes) (L : Bytes) (rest : Reader)
    (hw : p.output.succeeds) (hL : p.delim ∉ L)
    (hin : p.reader = Reader.ofBytes L ++ ReadEvent.data p.delim :: rest) :
    (∃ a, Prompt.Map C p q maps def_ = Except.ok a ∧ a.err = none ∧
      a.value = (if L = [] then def_ else Split L 44) ∧ a.prompt.reader = rest) ∧
    List.intercalate [44] (Split L 44) = L ∧ (∀ t ∈ Split L 44, 44 ∉ t) := by
  refine ⟨?_, intercalate_Split L 44, Split_no_sep_mem L 44⟩
  obtain ⟨o1, hrun, hread⟩ := phase_then_line (callsMap C p q maps def_) p L rest hw hL hin
  rw [Map_of_read C p q maps def_ _ _ _ _ _ hrun hread]
  by_cases h : L = [] <;> simp [h]

/-- C5, at the line "a,zz" with a mapping that has neither key. -/
theorem Map_answer_witness :
    (∃ a, Prompt.Map ⟨0, fun c => decide (0 ≤ c ∧ c < 9)⟩
        ⟨Reader.ofBytes [97, 44, 122, 122, 10], ⟨[], []⟩, 10, 2⟩ [113] [([107], [118])] [[107]]
          = Except.ok a ∧
      a.err = none ∧ a.value = (if ([97, 44, 122, 122] : Bytes) = [] then [[107]] else Split [97, 44, 122, 122] 44) ∧
      a.prompt.reader = []) ∧
    List.intercalate [44] (Split [97, 44, 122, 122] 44) = [97, 44, 122, 122] ∧
    (∀ t ∈ Split [97, 44, 122, 122] 44, 44 ∉ t) :=
  Map_answer ⟨0, fun c => decide (0 ≤ c ∧ c < 9)⟩
    ⟨Reader.ofBytes [97, 44, 122, 122, 10], ⟨[], []⟩, 10, 2⟩ [113] [([107], [118])] [[107]]
    [97, 44, 122, 122] [] (by decide) (by decide) rfl


/-! ## The claim about the first failure -/

theorem printf_eq (w : W) (C : Colors) (o : Writer) (c : Color) (f : Bytes) (v : List Arg) :
    w.printf C o c f v = runCalls [⟨PrintFn.Fprintf f, c, C.Default, v⟩] (w, o) := by
  simp only [W.printf, runCalls]

theorem phase_write_fails (cs : List PrintCall) (p : Prompt) (k : Nat) (e : GoError)
    (more : List (Option GoError))
    (ho : p.output.outcomes = List.replicate k none ++ some e :: more) (hk : k < cs.length) :
    runCalls cs (⟨none⟩, p.output) = (⟨some e⟩, ⟨p.output.calls ++ cs.take (k + 1), more⟩) ∧
      (⟨some e⟩ : W).read ⟨p.reader, ⟨p.output.calls ++ cs.take (k + 1), more⟩, p.delim,
          p.defaultColor⟩
        = Except.ok ([], ⟨some e⟩,
            ⟨p.reader, ⟨p.output.calls ++ cs.take (k + 1), more⟩, p.delim, p.defaultColor⟩) :=
  ⟨runCalls_fail cs p.output k e more ho hk, read_poisoned _ _ e rfl⟩

theorem phase_read_fails (cs : List PrintCall) (p : Prompt) (e : GoError)
    (hw : p.output.succeeds) (he : (ReadString p.reader p.delim).err = some e) :
    runCalls cs (⟨none⟩, p.output)
        = (⟨none⟩, ⟨p.output.calls ++ cs, p.output.outcomes.drop cs.length⟩) ∧
      (⟨none⟩ : W).read ⟨p.reader, ⟨p.output.calls ++ cs, p.output.outcomes.drop cs.length⟩,
          p.delim, p.defaultColor⟩
        = Except.ok ([], ⟨some e⟩,
            ⟨(ReadString p.reader p.delim).rest,
              ⟨p.output.calls ++ cs, p.output.outcomes.drop cs.length⟩, p.delim,
              p.defaultColor⟩) :=
  ⟨runCalls_succeeds cs p.output hw, read_error ⟨none⟩ ⟨p.reader, _, p.delim, p.defaultColor⟩ e rfl he⟩

/-- C8: first failure wins. On a cursor that already holds an error, `print`, `println`,
`printf` and `read` leave the output, the input and the cursor as they are, and `read`
returns "" whatever the input holds. In `String`, `Bool`, `Slice` and `Map`: when the
write number `k` (counted from 0) is the first to fail, with error `e`, the sink receives
the calls up to that one and no other, the input is untouched, and the method returns the
zero value with `e`; when all writes succeed and the read fails with `e`, the method
returns the zero value with `e`, the input being what the failed read left. The numbers of
writes of the four methods are given, and the two reads of the test with the timing-out
reader are evaluated. -/
theorem first_failure_wins (C : Colors) :
    (∀ (w : W) (e : GoError) (o : Writer) (c : Color) (f : Bytes) (v : List Arg) (p : Prompt),
      w.err = some e →
        w.print C o c v = (w, o) ∧ w.println C o c v = (w, o) ∧ w.printf C o c f v = (w, o) ∧
        w.read p = Except.ok ([], w, p)) ∧
    (∀ (p : Prompt) (q def_ : Bytes) (k : Nat) (e : GoError) (more : List (Option GoError)),
      p.output.outcomes = List.replicate k none ++ some e :: more →
      k < (callsString C p q def_).length →
        Prompt.String C p q def_ = Except.ok ⟨[], some e,
          ⟨p.reader, ⟨p.output.calls ++ (callsString C p q def_).take (k + 1), more⟩,
            p.delim, p.defaultColor⟩⟩) ∧
    (∀ (p : Prompt) (q def_ : Bytes) (e : GoError),
      p.output.succeeds → (ReadString p.reader p.delim).err = some e →
        Prompt.String C p q def_ = Except.ok ⟨[], some e,
          ⟨(ReadString p.reader p.delim).rest,
            ⟨p.output.calls ++ callsString C p q def_,
              p.output.outcomes.drop (callsString C p q def_).length⟩,
            p.delim, p.defaultColor⟩⟩) ∧
    (∀ (m : Bytes → Bytes) (p : Prompt) (q : Bytes) (def_ : Bool) (k : Nat) (e : GoError)
        (more : List (Option GoError)),
      p.output.outcomes = List.replicate k none ++ some e :: more →
      k < (callsBool C p q def_).length →
        Prompt.Bool C m p q def_ = Except.ok ⟨false, some e,
          ⟨p.reader, ⟨p.output.calls ++ (callsBool C p q def_).take (k + 1), more⟩,
            p.delim, p.defaultColor⟩⟩) ∧
    (∀ (m : Bytes → Bytes) (p : Prompt) (q : Bytes) (def_ : Bool) (e : GoError),
      p.output.succeeds → (ReadString p.reader p.delim).err = some e →
        Prompt.Bool C m p q def_ = Except.ok ⟨false, some e,
          ⟨(ReadString p.reader p.delim).rest,
            ⟨p.output.calls ++ callsBool C p q def_,
              p.output.outcomes.drop (callsBool C p q def_).length⟩,
            p.delim, p.defaultColor⟩⟩) ∧
    (∀ (p : Prompt) (q : Bytes) (slice : List Bytes) (def_ : List Int) (k : Nat) (e : GoError)
        (more : List (Option GoError)),
      p.output.outcomes = List.replicate k none ++ some e :: more →
      k < (callsSlice C p q slice def_).length →
        Prompt.Slice C p q slice def_ = Except.ok ⟨[], some e,
          ⟨p.reader, ⟨p.output.calls ++ (callsSlice C p q slice def_).take (k + 1), more⟩,
            p.delim, p.defaultColor⟩⟩) ∧
    (∀ (p : Prompt) (q : Bytes) (slice : List Bytes) (def_ : List Int) (e : GoError),
      p.output.succeeds → (ReadString p.reader p.delim).err = some e →
        Prompt.Slice C p q slice def_ = Except.ok ⟨[], some e,
          ⟨(ReadString p.reader p.delim).rest,
            ⟨p.output.calls ++ callsSlice C p q slice def_,
              p.output.outcomes.drop (callsSlice C p q slice def_).length⟩,
            p.delim, p.defaultColor⟩⟩) ∧
    (∀ (p : Prompt) (q : Bytes) (maps : List (Bytes × Bytes)) (def_ : List Bytes) (k : Nat)
        (e : GoError) (more : List (Option GoError)),
      p.output.outcomes = List.replicate k none ++ some e :: more →
      k < (callsMap C p q maps def_).length →
        Prompt.Map C p q maps def_ = Except.ok ⟨[], some e,
          ⟨p.reader, ⟨p.output.calls ++ (callsMap C p q maps def_).take (k + 1), more⟩,
            p.delim, p.defaultColor⟩⟩) ∧
    (∀ (p : Prompt) (q : Bytes) (maps : List (Bytes × Bytes)) (def_ : List Bytes) (e : GoError),
      p.output.succeeds → (ReadString p.reader p.delim).err = some e →
        Prompt.Map C p q maps def_ = Except.ok ⟨[], some e,
          ⟨(ReadString p.reader p.delim).rest,
            ⟨p.output.calls ++ callsMap C p q maps def_,
              p.output.outcomes.drop (callsMap C p q maps def_).length⟩,
            p.delim, p.defaultColor⟩⟩) ∧
    (∀ (p : Prompt) (q d : Bytes) (b : Bool) (slice : List Bytes) (di : List Int)
        (maps : List (Bytes × Bytes)) (dk : List Bytes),
      (callsString C p q d).length = (if d = [] then 2 else 3) ∧
      (callsBool C p q b).length = 3 ∧
      (callsSlice C p q slice di).length = 2 * slice.length + 2 ∧
      (callsMap C p q maps dk).length = 2 * maps.length + 2) ∧
    (∀ (o : Writer) (c : Color),
      W.read ⟨none⟩
          ⟨Reader.ofBytes [104, 101, 108, 108, 111] ++ ReadEvent.fail (GoError.io 1) ::
            Reader.ofBytes [119, 111, 114, 108, 100, 10, 10], o, 10, c⟩
        = Except.ok ([], ⟨some (GoError.io 1)⟩,
            ⟨Reader.ofBytes [119, 111, 114, 108, 100, 10, 10], o, 10, c⟩) ∧
      W.read ⟨some (GoError.io 1)⟩ ⟨Reader.ofBytes [119, 111, 114, 108, 100, 10, 10], o, 10, c⟩
        = Except.ok ([], ⟨some (GoError.io 1)⟩,
            ⟨Reader.ofBytes [119, 111, 114, 108, 100, 10, 10], o, 10, c⟩)) := by
  refine ⟨?_, ?_, ?_, ?_, ?_, ?_, ?_, ?_, ?_, ?_, fun o c => ⟨rfl, rfl⟩⟩
  · intro w e o c f v p hw
    refine ⟨?_, ?_, ?_, read_poisoned w p e hw⟩
    · rw [print_eq]; exact runCalls_poisoned _ _ (by simp [hw])
    · rw [println_eq]; exact runCalls_poisoned _ _ (by simp [hw])
    · rw [printf_eq]; exact runCalls_poisoned _ _ (by simp [hw])
  · intro p q def_ k e more ho hk
    obtain ⟨hrun, hread⟩ := phase_write_fails _ p k e more ho hk
    rw [String_of_read C p q def_ _ _ _ _ _ hrun hread]
    simp
  · intro p q def_ e hw he
    obtain ⟨hrun, hread⟩ := phase_read_fails (callsString C p q def_) p e hw he
    rw [String_of_read C p q def_ _ _ _ _ _ hrun hread]
    simp
  · intro m p q def_ k e more ho hk
    obtain ⟨hrun, hread⟩ := phase_write_fails _ p k e more ho hk
    rw [Bool_of_read C m p q def_ _ _ _ _ _ hrun hread]
    simp
  · intro m p q def_ e hw he
    obtain ⟨hrun, hread⟩ := phase_read_fails (callsBool C p q def_) p e hw he
    rw [Bool_of_read C m p q def_ _ _ _ _ _ hrun hread]
    simp
  · intro p q slice def_ k e more ho hk
    obtain ⟨hrun, hread⟩ := phase_write_fails _ p k e more ho hk
    rw [Slice_of_read C p q slice def_ _ _ _ _ _ hrun hread]
    simp
  · intro p q slice def_ e hw he
    obtain ⟨hrun, hread⟩ := phase_read_fails (callsSlice C p q slice def_) p e hw he
    rw [Slice_of_read C p q slice def_ _ _ _ _ _ hrun hread]
    simp
  · intro p q maps def_ k e more ho hk
    obtain ⟨hrun, hread⟩ := phase_write_fails _ p k e more ho hk
    rw [Map_of_read C p q maps def_ _ _ _ _ _ hrun hread]
    simp
  · intro p q maps def_ e hw he
    obtain ⟨hrun, hread⟩ := phase_read_fails (callsMap C p q maps def_) p e hw he
    rw [Map_of_read C p q maps def_ _ _ _ _ _ hrun hread]
    simp
  · intro p q d b slice di maps dk
    refine ⟨?_, rfl, ?_, ?_⟩
    · by_cases hd : d = [] <;> simp [callsString, hd]
    · simp [callsSlice, Slice_loopCalls_length]
    · simp [callsMap, Map_loopCalls_length]

/-- C8, at a call of `String` whose second write fails while a complete line is waiting. -/
theorem first_failure_wins_witness :
    Prompt.String ⟨0, fun c => decide (0 ≤ c ∧ c < 9)⟩
        ⟨Reader.ofBytes [97, 10], ⟨[], [none, some (GoError.io 1), none]⟩, 10, 2⟩ [113] [100]
      = Except.ok ⟨[], some (GoError.io 1),
          ⟨Reader.ofBytes [97, 10],
            ⟨[] ++ (callsString ⟨0, fun c => decide (0 ≤ c ∧ c < 9)⟩
                ⟨Reader.ofBytes [97, 10], ⟨[], [none, some (GoError.io 1), none]⟩, 10, 2⟩
                [113] [100]).take (1 + 1), [none]⟩,
            10, 2⟩⟩ :=
  (first_failure_wins ⟨0, fun c => decide (0 ≤ c ∧ c < 9)⟩).2.1
    ⟨Reader.ofBytes [97, 10], ⟨[], [none, some (GoError.io 1), none]⟩, 10, 2⟩ [113] [100]
    1 (GoError.io 1) [none] rfl (by decide)


theorem loop_snoc (a : Bytes) (c : Byte) (m : Nat) :
    ParseUint.loop (a ++ [c]) m =
      (if (ParseUint.loop a m).2 = none then ParseUint.loop [c] (ParseUint.loop a m).1
       else ParseUint.loop a m) := by
  induction a generalizing m with
  | nil => simp [ParseUint.loop]
  | cons b bs ih =>
    simp only [List.cons_append]
    rw [ParseUint.loop, ParseUint.loop]
    by_cases h1 : 48 ≤ b ∧ b ≤ 57
    · rw [if_pos h1, if_pos h1]
      by_cases h2 : m ≥ (2 ^ 64 - 1) / 10 + 1
      · rw [if_pos h2, if_pos h2]
        simp
      · rw [if_neg h2, if_neg h2]
        simp only []
        by_cases h3 : (m * 10 + (b - 48)) % 2 ^ 64 < m * 10 ∨ (m * 10 + (b - 48)) % 2 ^ 64 > 2 ^ 64 - 1
        · rw [if_pos h3, if_pos h3]
          simp
        · rw [if_neg h3, if_neg h3]
          exact ih _
    · rw [if_neg h1, if_neg h1]
      simp

theorem fast_snoc (a : Bytes) (c : Byte) (m : Int) :
    Atoi.fast (a ++ [c]) m =
      (Atoi.fast a m).bind (fun r =>
        if (c + 256 - 48) % 256 > 9 then none else some (r * 10 + (((c + 256 - 48) % 256 : Nat) : Int))) := by
  induction a generalizing m with
  | nil => simp [Atoi.fast]
  | cons b bs ih =>
    simp only [List.cons_append, Atoi.fast]
    split
    · simp
    · exact ih _

theorem fast_digits (ds : List Nat) (h : ∀ d ∈ ds, d < 10) :
    Atoi.fast (ds.reverse.map (fun d => d + 48)) 0 = some ((Nat.ofDigits 10 ds : Nat) : Int) := by
  induction ds with
  | nil => simp [Atoi.fast, Nat.ofDigits]
  | cons d ds ih =>
    have hd : d < 10 := h d (by simp)
    have ih1 := ih (fun x hx => h x (by simp [hx]))
    have e1 : (d + 48 + 256 - 48) % 256 = d := by omega
    simp only [List.reverse_cons, List.map_append, List.map_cons, List.map_nil]
    rw [fast_snoc, ih1, e1]
    simp only [Option.some_bind]
    have e2 : ¬ d > 9 := by omega
    rw [if_neg e2]
    simp only [Nat.ofDigits_cons]
    congr 1
    push_cast
    ring

theorem loop_digits (ds : List Nat) (h : ∀ d ∈ ds, d < 10) (hlt : Nat.ofDigits 10 ds < 2 ^ 64) :
    ParseUint.loop (ds.reverse.map (fun d => d + 48)) 0 = (Nat.ofDigits 10 ds, none) := by
  induction ds with
  | nil => simp [ParseUint.loop, Nat.ofDigits]
  | cons d ds ih =>
    have hd : d < 10 := h d (by simp)
    simp only [Nat.ofDigits_cons] at hlt
    have hlt2 : d + 10 * Nat.ofDigits 10 ds < 18446744073709551616 := by
      norm_num at hlt; exact hlt
    have ih1 := ih (fun x hx => h x (by simp [hx])) (by norm_num; omega)
    simp only [List.reverse_cons, List.map_append, List.map_cons, List.map_nil]
    rw [loop_snoc, ih1]
    simp only [if_true, ParseUint.loop, Nat.ofDigits_cons]
    have c1 : 48 ≤ d + 48 ∧ d + 48 ≤ 57 := by omega
    have c2 : ¬ Nat.ofDigits 10 ds ≥ (2 ^ 64 - 1) / 10 + 1 := by norm_num; omega
    have e1 : (Nat.ofDigits 10 ds * 10 + (d + 48 - 48)) % 2 ^ 64
        = d + 10 * Nat.ofDigits 10 ds := by
      norm_num
      rw [Nat.mod_eq_of_lt (by omega)]
      ring
    have c3 : ¬ (d + 10 * Nat.ofDigits 10 ds < Nat.ofDigits 10 ds * 10 ∨
        d + 10 * Nat.ofDigits 10 ds > 2 ^ 64 - 1) := by norm_num; omega
    rw [if_pos c1, if_neg c2, e1, if_neg c3]

theorem natDigits_ne_nil (n : Nat) : natDigits n ≠ [] := by
  unfold natDigits
  split
  · simp
  · rename_i h
    simp [Nat.digits_ne_nil_iff_ne_zero, h]

theorem natDigits_digit (n : Nat) : ∀ b ∈ natDigits n, 48 ≤ b ∧ b ≤ 57 := by
  unfold natDigits
  split
  · simp
  · intro b hb
    simp only [List.mem_map, List.mem_reverse] at hb
    obtain ⟨d, hd, rfl⟩ := hb
    have := Nat.digits_lt_base (by norm_num : 1 < 10) hd
    exact ⟨Nat.le_add_left 48 d, Nat.add_le_add_right (Nat.le_of_lt_succ this) 48⟩

theorem natDigits_fast (n : Nat) : Atoi.fast (natDigits n) 0 = some (n : Int) := by
  unfold natDigits
  split
  · rename_i h
    subst h
    rfl
  · rw [fast_digits _ (fun d hd => Nat.digits_lt_base (by norm_num) hd), Nat.ofDigits_digits]

theorem natDigits_loop (n : Nat) (h : n < 2 ^ 64) : ParseUint.loop (natDigits n) 0 = (n, none) := by
  unfold natDigits
  split
  · rename_i h0
    subst h0
    simp [ParseUint.loop]
  · rw [loop_digits _ (fun d hd => Nat.digits_lt_base (by norm_num) hd)
      (by rw [Nat.ofDigits_digits]; exact h), Nat.ofDigits_digits]

theorem Atoi_digits (s : Bytes) (m : Nat) (hne : s ≠ []) (hdig : ∀ b ∈ s, 48 ≤ b ∧ b ≤ 57)
    (hfast : Atoi.fast s 0 = some (m : Int)) (hslow : ParseUint.loop s 0 = (m, none))
    (hm : m < 9223372036854775808) : Atoi s = ((m : Int), none) := by
  obtain ⟨c, rest, rfl⟩ := List.exists_cons_of_ne_nil hne
  have hc := hdig c (by simp)
  have h45 : c ≠ 45 := fun h => absurd (h ▸ hc.1) (by decide)
  have h43 : c ≠ 43 := fun h => absurd (h ▸ hc.1) (by decide)
  unfold Atoi
  split
  · simp only [h45, h43, or_self, if_false, false_and, hfast]
  · simp only [ParseInt, ParseUint, h45, h43, or_self, if_false, hslow]
    have : ¬ 9223372036854775808 ≤ m := by omega
    simp [this]

theorem Atoi_neg_digits (s : Bytes) (m : Nat) (hne : s ≠ []) (hdig : ∀ b ∈ s, 48 ≤ b ∧ b ≤ 57)
    (hfast : Atoi.fast s 0 = some (m : Int)) (hslow : ParseUint.loop s 0 = (m, none))
    (hm : m ≤ 9223372036854775808) : Atoi (45 :: s) = (-(m : Int), none) := by
  have hlen : ¬ s.length < 1 := by
    cases s with
    | nil => exact absurd rfl hne
    | cons b bs => simp
  unfold Atoi
  split
  · simp only [true_or, if_true, hlen, and_false, if_false, hfast]
  · simp only [ParseInt, ParseUint, or_true, if_true, hne, if_false, hslow]
    have : ¬ 9223372036854775808 < m := by omega
    simp [this]

theorem Atoi_Itoa (n : Int) (h1 : -2 ^ 63 ≤ n) (h2 : n < 2 ^ 63) : Atoi (Itoa n) = (n, none) := by
  norm_num at h1 h2
  unfold Itoa
  split
  · rename_i hneg
    have hm : n.natAbs ≤ 9223372036854775808 := by omega
    rw [Atoi_neg_digits _ n.natAbs (natDigits_ne_nil _) (natDigits_digit _) (natDigits_fast _)
      (natDigits_loop _ (by norm_num; omega)) hm]
    congr 1
    omega
  · rename_i hpos
    have hm : n.natAbs < 9223372036854775808 := by omega
    rw [Atoi_digits _ n.natAbs (natDigits_ne_nil _) (natDigits_digit _) (natDigits_fast _)
      (natDigits_loop _ (by norm_num; omega)) hm]
    congr 1
    omega

theorem Itoa_ne_nil (n : Int) : Itoa n ≠ [] := by
  unfold Itoa
  split
  · simp
  · exact natDigits_ne_nil _

theorem Itoa_no_comma (n : Int) : 44 ∉ Itoa n := by
  unfold Itoa
  split
  · intro h
    rcases List.mem_cons.mp h with h | h
    · exact absurd h (by decide)
    · exact absurd (natDigits_digit _ _ h).1 (by decide)
  · intro h
    exact absurd (natDigits_digit _ _ h).1 (by decide)

theorem fast_space (s : Bytes) (m : Int) (h : 32 ∈ s) : Atoi.fast s m = none := by
  induction s generalizing m with
  | nil => simp at h
  | cons b bs ih =>
    rcases List.mem_cons.mp h with hb | hb
    · subst hb
      simp [Atoi.fast]
    · simp only [Atoi.fast]
      split
      · rfl
      · exact ih _ hb

theorem loop_space (s : Bytes) (m : Nat) (h : 32 ∈ s) : (ParseUint.loop s m).2 ≠ none := by
  induction s generalizing m with
  | nil => simp at h
  | cons b bs ih =>
    rw [ParseUint.loop]
    rcases List.mem_cons.mp h with hb | hb
    · subst hb
      simp
    · split
      · split
        · simp
        · simp only []
          split
          · simp
          · exact ih _ hb
      · simp

theorem loop_range (s : Bytes) (m : Nat) (h : (ParseUint.loop s m).2 = some NumErrKind.range) :
    (ParseUint.loop s m).1 = 2 ^ 64 - 1 := by
  induction s generalizing m with
  | nil => simp [ParseUint.loop] at h
  | cons b bs ih =>
    rw [ParseUint.loop] at h ⊢
    split at h
    · rename_i h1
      rw [if_pos h1]
      split at h
      · rename_i h2
        rw [if_pos h2]
      · rename_i h2
        rw [if_neg h2]
        simp only [] at h ⊢
        split at h
        · rename_i h3
          rw [if_pos h3]
        · rename_i h3
          rw [if_neg h3]
          exact ih _ h
    · simp at h

theorem ParseInt_space (s : Bytes) (h : 32 ∈ s) : (ParseInt s).2 ≠ none := by
  cases s with
  | nil => simp at h
  | cons c rest =>
    simp only [ParseInt]
    have hs1 : 32 ∈ (if c = 43 ∨ c = 45 then rest else c :: rest) := by
      split
      · rename_i hc
        rcases List.mem_cons.mp h with hb | hb
        · rcases hc with hc | hc <;> rw [← hb] at hc <;> exact absurd hc (by decide)
        · exact hb
      · exact h
    generalize (if c = 43 ∨ c = 45 then rest else c :: rest) = s1 at hs1
    have hne : s1 ≠ [] := List.ne_nil_of_mem hs1
    have hl := loop_space s1 0 hs1
    have hr := loop_range s1 0
    simp only [ParseUint, hne, if_false]
    cases hk : (ParseUint.loop s1 0).2 with
    | none => exact absurd hk hl
    | some k =>
      cases k with
      | invalid => simp
      | range =>
        have hv := hr hk
        rw [hv]
        by_cases hneg : c = 45 <;> simp [hneg]

theorem Atoi_space (t : Bytes) (h : 32 ∈ t) : (Atoi t).2 ≠ none := by
  unfold Atoi
  split
  · cases t with
    | nil => simp at h
    | cons c rest =>
      simp only []
      by_cases hc : c = 45 ∨ c = 43
      · have hr : 32 ∈ rest := by
          rcases List.mem_cons.mp h with hb | hb
          · rcases hc with hc | hc <;> rw [← hb] at hc <;> exact absurd hc (by decide)
          · exact hb
        simp only [hc, if_true, true_and, fast_space rest 0 hr]
        split <;> simp
      · simp only [hc, if_false, false_and, fast_space (c :: rest) 0 h]
        simp
  · have := ParseInt_space t h
    simpa using this

theorem Atoi_nil : (Atoi []).2 ≠ none := by decide

theorem parseLoop_ok (ts : List Bytes) (acc : List Int) (h : ∀ t ∈ ts, (Atoi t).2 = none) :
    Prompt.Slice.parseLoop ts acc = (acc ++ ts.map (fun t => (Atoi t).1), none) := by
  induction ts generalizing acc with
  | nil => simp [Prompt.Slice.parseLoop]
  | cons t ts ih =>
    have ht := h t (by simp)
    cases hA : Atoi t with
    | mk v e =>
      rw [hA] at ht
      simp only at ht
      subst ht
      simp only [Prompt.Slice.parseLoop, hA]
      rw [ih _ (fun x hx => h x (by simp [hx]))]
      simp [hA]

theorem parseLoop_err (ts : List Bytes) (acc : List Int) (h : ∃ t ∈ ts, (Atoi t).2 ≠ none) :
    ∃ e, Prompt.Slice.parseLoop ts acc = ([], some e) := by
  induction ts generalizing acc with
  | nil => simp at h
  | cons t ts ih =>
    cases hA : Atoi t with
    | mk v e =>
      cases e with
      | some err => exact ⟨err, by simp only [Prompt.Slice.parseLoop, hA]⟩
      | none =>
        simp only [Prompt.Slice.parseLoop, hA]
        apply ih
        obtain ⟨x, hx, hxe⟩ := h
        rcases List.mem_cons.mp hx with hx | hx
        · subst hx
          rw [hA] at hxe
          exact absurd rfl hxe
        · exact ⟨x, hx, hxe⟩

/-! ## The claims about index selection -/

/-- C3: when the writes succeed and the next input line is `L`: for the empty line `Slice`
returns `def` unchanged with a nil error; when `L` is the decimal renderings of a non-empty
list of Go integers joined by commas, `Slice` returns that list, in order, with a nil error,
whatever the list of options. -/
theorem Slice_answer (C : Colors) (p : Prompt) (q : Bytes) (slice : List Bytes)
    (def_ : List Int) (L : Bytes) (rest : Reader)
    (hw : p.output.succeeds) (hL : p.delim ∉ L)
    (hin : p.reader = Reader.ofBytes L ++ ReadEvent.data p.delim :: rest) :
    ∃ a, Prompt.Slice C p q slice def_ = Except.ok a ∧ a.prompt.reader = rest ∧
      (L = [] → a.value = def_ ∧ a.err = none) ∧
      (∀ ns : List Int, ns ≠ [] → (∀ n ∈ ns, -2 ^ 63 ≤ n ∧ n < 2 ^ 63) →
        L = List.intercalate [44] (ns.map Itoa) → a.value = ns ∧ a.err = none) := by
  obtain ⟨o1, hrun, hread⟩ := phase_then_line (callsSlice C p q slice def_) p L rest hw hL hin
  rw [Slice_of_read C p q slice def_ _ _ _ _ _ hrun hread]
  by_cases h : L = []
  · subst h
    refine ⟨_, by simp; rfl, rfl, fun _ => ⟨rfl, rfl⟩, ?_⟩
    intro ns hns _ hjoin
    exfalso
    obtain ⟨n, ms, rfl⟩ := List.exists_cons_of_ne_nil hns
    have hn := Itoa_ne_nil n
    cases ms with
    | nil => simp [List.intercalate, List.intersperse] at hjoin; exact hn hjoin
    | cons m ms => simp [List.intercalate, List.intersperse] at hjoin
  · refine ⟨_, by simp [h]; rfl, rfl, fun h0 => absurd h0 h, ?_⟩
    intro ns hns hrange hjoin
    have hsplit : Split L 44 = ns.map Itoa := by
      rw [hjoin]
      apply Split_intercalate
      · simpa using hns
      · intro t ht
        obtain ⟨n, _, rfl⟩ := List.mem_map.mp ht
        exact Itoa_no_comma n
    have hall : ∀ t ∈ ns.map Itoa, (Atoi t).2 = none := by
      intro t ht
      obtain ⟨n, hn, rfl⟩ := List.mem_map.mp ht
      rw [Atoi_Itoa n (hrange n hn).1 (hrange n hn).2]
    have hval : (ns.map Itoa).map (fun t => (Atoi t).1) = ns := by
      rw [List.map_map]
      conv_rhs => rw [← List.map_id ns]
      apply List.map_congr_left
      intro n hn
      simp [Atoi_Itoa n (hrange n hn).1 (hrange n hn).2]
    simp [hsplit, parseLoop_ok _ [] hall, hval]

/-- C3, at the line "1,3" with two options. -/
theorem Slice_answer_witness :
    ∃ a, Prompt.Slice ⟨0, fun c => decide (0 ≤ c ∧ c < 9)⟩
        ⟨Reader.ofBytes [49, 44, 51, 10], ⟨[], []⟩, 10, 2⟩ [113] [[97], [98]] [0] = Except.ok a ∧
      a.value = [1, 3] ∧ a.err = none := by
  obtain ⟨a, h1, _, _, h4⟩ := Slice_answer ⟨0, fun c => decide (0 ≤ c ∧ c < 9)⟩
    ⟨Reader.ofBytes [49, 44, 51, 10], ⟨[], []⟩, 10, 2⟩ [113] [[97], [98]] [0] [49, 44, 51] []
    (by decide) (by decide) rfl
  exact ⟨a, h1, h4 [1, 3] (by decide) (by decide)
    (by simp [Itoa, natDigits, List.intercalate, List.intersperse])⟩

/-- C4: when the writes succeed and the next input line `L` is not empty, `Slice` returns
an error exactly when `strconv.Atoi` rejects one of the tokens of `L` between commas; with
an error the list returned is nil, also when earlier tokens were parsed; without one it is
the list of the values of the tokens. The empty token and every token with a space are
rejected. -/
theorem Slice_error_iff (C : Colors) (p : Prompt) (q : Bytes) (slice : List Bytes)
    (def_ : List Int) (L : Bytes) (rest : Reader)
    (hw : p.output.succeeds) (hL : p.delim ∉ L)
    (hin : p.reader = Reader.ofBytes L ++ ReadEvent.data p.delim :: rest) (hne : L ≠ []) :
    (∃ a, Prompt.Slice C p q slice def_ = Except.ok a ∧ a.prompt.reader = rest ∧
      (a.err ≠ none ↔ ∃ t ∈ Split L 44, (Atoi t).2 ≠ none) ∧
      (a.err ≠ none → a.value = []) ∧
      (a.err = none → a.value = (Split L 44).map (fun t => (Atoi t).1))) ∧
    (Atoi []).2 ≠ none ∧ (∀ t : Bytes, 32 ∈ t → (Atoi t).2 ≠ none) := by
  refine ⟨?_, Atoi_nil, Atoi_space⟩
  obtain ⟨o1, hrun, hread⟩ := phase_then_line (callsSlice C p q slice def_) p L rest hw hL hin
  rw [Slice_of_read C p q slice def_ _ _ _ _ _ hrun hread]
  refine ⟨_, by simp [hne]; rfl, rfl, ?_⟩
  by_cases hbad : ∃ t ∈ Split L 44, (Atoi t).2 ≠ none
  · obtain ⟨e, he⟩ := parseLoop_err (Split L 44) [] hbad
    simp [he, hbad]
  · have hall : ∀ t ∈ Split L 44, (Atoi t).2 = none := by
      intro t ht
      by_contra hc
      exact hbad ⟨t, ht, hc⟩
    simp [parseLoop_ok _ [] hall, hbad]

/-- C4, at the line "1,x": an error and no partial list. -/
theorem Slice_error_iff_witness :
    ∃ a, Prompt.Slice ⟨0, fun c => decide (0 ≤ c ∧ c < 9)⟩
        ⟨Reader.ofBytes [49, 44, 120, 10], ⟨[], []⟩, 10, 2⟩ [113] [[97], [98]] [0] = Except.ok a ∧
      a.err ≠ none ∧ a.value = [] := by
  obtain ⟨⟨a, h1, _, h3, h4, _⟩, _⟩ := Slice_error_iff ⟨0, fun c => decide (0 ≤ c ∧ c < 9)⟩
    ⟨Reader.ofBytes [49, 44, 120, 10], ⟨[], []⟩, 10, 2⟩ [113] [[97], [98]] [0] [49, 44, 120] []
    (by decide) (by decide) rfl (by decide)
  have he : a.err ≠ none := h3.mpr ⟨[120], by decide, by decide⟩
  exact ⟨a, h1, he, h4 he⟩

end Term
